import Mathlib

/-!
# Verification of the rag-server retrieval pipeline

Shallow embedding of the session-scoped chunk-embed-index-search-refine
pipeline of `src/ragServer.py`.  Text is modelled as `List Char`; the
external embedding model and the cosine-similarity routine are black-box
parameters (`emb`, `sim`); the faiss flat L2 index is modelled as the list
of stored vectors with brute-force squared-L2 search (first minimum wins,
`-1` on an empty index), and numpy `argmax` as the first index attaining
the maximum.  Rationals stand in for the floating-point scalars.
-/

namespace RagServer

/-- Whitespace characters recognised by Python `str.split()` / `str.strip()`
(ASCII fragment: space, tab, newline, carriage return, vertical tab, form feed). -/
def isPySpace (c : Char) : Bool :=
  c = ' ' || c = '\t' || c = '\n' || c = '\r' || c = Char.ofNat 11 || c = Char.ofNat 12

/-- Scanner for Python `text.split()`: accumulate the current word (reversed)
in `acc`, emit it at each whitespace run, discard empty words. -/
def pyWordsAux : List Char → List Char → List (List Char)
  | acc, [] => if acc.isEmpty then [] else [acc.reverse]
  | acc, c :: cs =>
      if isPySpace c then
        if acc.isEmpty then pyWordsAux [] cs else acc.reverse :: pyWordsAux [] cs
      else pyWordsAux (c :: acc) cs

/-- Python `text.split()`: split on whitespace runs, no empty words. -/
def pyWords (text : List Char) : List (List Char) :=
  pyWordsAux [] text

/-- Python `" ".join(ws)`. -/
def joinSep : List (List Char) → List Char
  | [] => []
  | [w] => w
  | w :: v :: ws => w ++ ' ' :: joinSep (v :: ws)

/-- Grouping loop behind `chunk_text`: `k` is the remaining capacity of the
current group (invariant `k = n - acc.length`, `1 ≤ k`); a full group is
emitted as soon as capacity is exhausted. -/
def chunkAux {α : Type} (n : ℕ) : List α → ℕ → List α → List (List α)
  | acc, _, [] => if acc.isEmpty then [] else [acc.reverse]
  | acc, k, w :: ws =>
      if k ≤ 1 then (w :: acc).reverse :: chunkAux n [] n ws
      else chunkAux n (w :: acc) (k - 1) ws

/-- `words[i:i+n]` for `i in range(0, len(words), n)`: consecutive
non-overlapping groups of `n` words (final group possibly shorter).
Assumes `0 < n` (Python `range` with step 0 raises). -/
def chunkWords {α : Type} (n : ℕ) (ws : List α) : List (List α) :=
  chunkAux n [] n ws

/-- `chunk_text(text, chunk_size)` from `src/ragServer.py`:
`[" ".join(words[i:i+chunk_size]) for i in range(0, len(words), chunk_size)]`
with `words = text.split()`. -/
def chunk_text (text : List Char) (chunk_size : ℕ) : List (List Char) :=
  (chunkWords chunk_size (pyWords text)).map joinSep

/-! ## Vector search (faiss `IndexFlatL2`, `k = 1`) and numpy `argmax` -/

/-- Squared Euclidean distance between two vectors (faiss `IndexFlatL2` metric). -/
def sqDist (u v : List ℚ) : ℚ :=
  (List.zipWith (fun a b => (a - b) ^ 2) u v).sum

/-- First index attaining the minimum of a list (ties go to the earlier index).
Modelled from the spec: faiss flat search keeps the first strictly better row,
so on equal distances the lower row index wins. -/
def argminQ : List ℚ → ℕ
  | [] => 0
  | x :: xs => if x ≤ (xs.getD (argminQ xs) 0) || xs.isEmpty then 0 else argminQ xs + 1

/-- `np.argmax`: first index attaining the maximum of a list. -/
def npArgmax : List ℚ → ℕ
  | [] => 0
  | x :: xs => if (xs.getD (npArgmax xs) 0) ≤ x || xs.isEmpty then 0 else npArgmax xs + 1

/-- `index.search(q, k=1)` row index, as faiss reports it:
`-1` when the index holds no vectors, else the row of smallest `sqDist`. -/
def faissSearch1 (rows : List (List ℚ)) (q : List ℚ) : ℤ :=
  if rows.isEmpty then -1 else (argminQ (rows.map (fun r => sqDist q r)) : ℤ)

/-- Python list indexing `l[i]` with an `int` index: negative indices count
from the end; out of range raises (`none`). -/
def pyGet {α : Type} (l : List α) (i : ℤ) : Option α :=
  if 0 ≤ i then
    if h : i.toNat < l.length then some (l.get ⟨i.toNat, h⟩) else none
  else
    if h : (i + l.length).toNat < l.length ∧ 0 ≤ i + l.length then
      some (l.get ⟨(i + l.length).toNat, h.1⟩)
    else none

/-! ## Sentence split: `re.split(r'(?<=[.!?]) +', best_chunk)` -/

/-- Sentence-terminal punctuation of the split pattern. -/
def isSentEnd (c : Char) : Bool :=
  c = '.' || c = '!' || c = '?'

/-- Scanner for `re.split(r'(?<=[.!?]) +', s)`: a split point is a run of
spaces preceded by `.`/`!`/`?`; the punctuation stays with its sentence and
the space run is consumed (`sep` is true while consuming it). -/
def sentAux : Bool → List Char → List Char → List (List Char)
  | _, acc, [] => [acc.reverse]
  | sep, acc, c :: cs =>
      if sep && c = ' ' then sentAux true acc cs
      else if isSentEnd c && cs.head? = some ' ' then
        (c :: acc).reverse :: sentAux true [] cs
      else sentAux false (c :: acc) cs

/-- `re.split(r'(?<=[.!?]) +', s)` (always at least one piece). -/
def splitSentences (s : List Char) : List (List Char) :=
  sentAux false [] s

/-! ## Authorship heuristic -/

/-- Python `str.lower()` on the Latin letters this module uses
(ASCII `A`-`Z` and the Latin-1 uppercase letters). -/
def pyLower (c : Char) : Char :=
  if 'A' ≤ c && c ≤ 'Z' then Char.ofNat (c.toNat + 32)
  else if 192 ≤ c.toNat && c.toNat ≤ 222 && c.toNat ≠ 215 then Char.ofNat (c.toNat + 32)
  else c

/-- Does `needle` start `hay`? -/
def leadsWith : List Char → List Char → Bool
  | _, [] => true
  | [], _ :: _ => false
  | c :: cs, d :: ds => c = d && leadsWith cs ds

/-- Python substring test `needle in hay`. -/
def hasSub (needle : List Char) : List Char → Bool
  | [] => leadsWith [] needle
  | c :: rest => leadsWith (c :: rest) needle || hasSub needle rest

/-- The trigger phrases of
`any(x in question.lower() for x in [...])` in `rag_query`. -/
def authorTriggers : List (List Char) :=
  ["présenté".data, "présentateur".data, "auteur".data,
   "qui a fait".data, "qui a écrit".data, "qui a réalisé".data]

/-- `any(x in question.lower() for x in [...])`. -/
def authorTrigger (question : List Char) : Bool :=
  authorTriggers.any (fun t => hasSub t (question.map pyLower))

/-- Regex `\s` (ASCII fragment), as in the Python pattern. -/
def isReWs (c : Char) : Bool := isPySpace c

/-- The character class `[A-ZÉÈÀÂÎÔÛÇa-zéèàâêîôûç'\- ]` under `re.IGNORECASE`:
ASCII letters, both cases of the listed accented letters, apostrophe, hyphen,
space. -/
def nameClassChar (c : Char) : Bool :=
  ('A' ≤ c && c ≤ 'Z') || ('a' ≤ c && c ≤ 'z') ||
  c ∈ "ÉÈÀÂÊÎÔÛÇéèàâêîôûç".data ||
  c = Char.ofNat 39 || c = '-' || c = ' '

/-- Characters kept by `re.sub(r'[^A-Za-zÀ-ÖØ-öø-ÿ'\- ]', '', nom)`. -/
def keepChar (c : Char) : Bool :=
  ('A' ≤ c && c ≤ 'Z') || ('a' ≤ c && c ≤ 'z') ||
  (192 ≤ c.toNat && c.toNat ≤ 214) || (216 ≤ c.toNat && c.toNat ≤ 246) ||
  (248 ≤ c.toNat && c.toNat ≤ 255) ||
  c = Char.ofNat 39 || c = '-' || c = ' '

/-- Python `str.strip()`. -/
def pyStrip (l : List Char) : List Char :=
  ((l.dropWhile isPySpace).reverse.dropWhile isPySpace).reverse

/-- Greedy `([class]+)`: the maximal non-empty run of name characters. -/
def matchName (s : List Char) : Option (List Char) :=
  let nm := s.takeWhile nameClassChar
  if nm.isEmpty then none else some nm

/-- Backtracking of a greedy `\s*`: try consuming the whole leading
whitespace run first, then ever shorter prefixes of it. -/
def tryWs {β : Type} (s : List Char) (f : List Char → Option β) : Option β :=
  (List.range ((s.takeWhile isReWs).length + 1)).reverse.findSome?
    (fun k => f (s.drop k))

/-- `\s*[:\-]?\s*([class]+)` after the matched label, with Python
backtracking order (first `\s*` longest first, separator present before
absent, second `\s*` longest first); yields the capture of group 2. -/
def matchTail (s : List Char) : Option (List Char) :=
  tryWs s (fun r1 =>
    (match r1 with
     | c :: rest => if c = ':' || c = '-' then tryWs rest matchName else none
     | [] => none) <|>
    tryWs r1 matchName)

/-- The alternation `(présenté par|auteur|présentateur)`, tried in order. -/
def triggerLabels : List (List Char) :=
  ["présenté par".data, "auteur".data, "présentateur".data]

/-- Attempt the whole pattern at one start position (`re.IGNORECASE` realised
by case-folding the scanned text against the lowercase labels). -/
def regexMatchAt (s : List Char) : Option (List Char) :=
  triggerLabels.findSome? (fun lab =>
    if (s.take lab.length).map pyLower = lab then matchTail (s.drop lab.length)
    else none)

/-- `re.search(...).group(2)`: leftmost successful start position. -/
def reSearchGroup2 : List Char → Option (List Char)
  | [] => none
  | c :: rest => regexMatchAt (c :: rest) <|> reSearchGroup2 rest

/-- `nom.strip()` followed by the `re.sub` character filter. -/
def cleanName (nm : List Char) : List Char :=
  (pyStrip nm).filter keepChar

/-- The authorship block of `rag_query`: when the question holds a trigger
phrase and the pattern matches the selected sentence, the cleaned group-2
capture replaces the sentence. -/
def heuristic (question best_sentence : List Char) : List Char :=
  if authorTrigger question then
    match reSearchGroup2 best_sentence with
    | some g2 => cleanName g2
    | none => best_sentence
  else best_sentence

/-! ## Query-time refinement -/

/-- The list `sims` of `rag_query`: the similarity (the external `cos_sim`
over the external embeddings, abstracted as `sim` and `emb`) between the
question and each sentence, in sentence order. -/
def sentenceSims (emb : List Char → List ℚ) (sim : List ℚ → List ℚ → ℚ)
    (question : List Char) (sentences : List (List Char)) : List ℚ :=
  sentences.map (fun s => sim (emb question) (emb s))

/-- Sentence selection of `rag_query`: with a single sentence the chunk
itself is the candidate, otherwise `sentences[np.argmax(sims)]`. -/
def bestSentence (emb : List Char → List ℚ) (sim : List ℚ → List ℚ → ℚ)
    (question best_chunk : List Char) : List Char :=
  let sentences := splitSentences best_chunk
  if sentences.length = 1 then best_chunk
  else sentences.getD (npArgmax (sentenceSims emb sim question sentences)) []

/-- The whole post-processing of `rag_query` on the best-matching chunk. -/
def refine (emb : List Char → List ℚ) (sim : List ℚ → List ℚ → ℚ)
    (question best_chunk : List Char) : List Char :=
  heuristic question (bestSentence emb sim question best_chunk)

/-! ## Session registry and the two operations -/

/-- One session entry: the faiss index rows and the chunk texts
(`PDF_INDEXES[session_id] = {"index": index, "chunks": chunks}`). -/
structure Entry : Type where
  index : List (List ℚ)
  chunks : List (List Char)
  deriving DecidableEq

/-- The global `PDF_INDEXES` dict, one entry per session id. -/
def Registry : Type := String → Option Entry

/-- The empty registry (server start-up state). -/
def emptyReg : Registry := fun _ => none

/-- Dict assignment `PDF_INDEXES[session_id] = entry`. -/
def updateReg (reg : Registry) (sid : String) (e : Entry) : Registry :=
  fun x => if x = sid then some e else reg x

/-- `index_pdf` on the already-extracted text (`extract_pdf_text` is the
external document-to-text collaborator): chunk with the default size 128,
embed every chunk in order, read the embedding width, build the flat index,
store the entry.  On a zero-chunk document `model.encode([])` is an empty
array of shape `(0,)`, so the `dim = embeddings.shape[1]` read raises
`IndexError` before the entry is stored: the call fails (`none`) and the
registry is left as it was. -/
def index_pdf (emb : List Char → List ℚ) (text : List Char) (session_id : String)
    (reg : Registry) : Option Registry :=
  let chunks := chunk_text text 128
  let embeddings := chunks.map emb
  if embeddings.isEmpty then none
  else some (updateReg reg session_id ⟨embeddings, chunks⟩)

/-- The sentinel answer for an unknown session. -/
def noPdfMsg : List Char := "Aucun PDF indexé pour cette session.".data

/-- `rag_query`: sentinel on an unknown session; otherwise search the
session's index with the embedded question, fetch the chunk at the reported
row (Python indexing; `none` models the `IndexError` raised on an empty
index, where faiss reports row `-1`), and refine it.  The second component
is the registry after the call. -/
def rag_query (emb : List Char → List ℚ) (sim : List ℚ → List ℚ → ℚ)
    (question : List Char) (session_id : String) (reg : Registry) :
    Option (List Char) × Registry :=
  match reg session_id with
  | none => (some noPdfMsg, reg)
  | some e =>
      let q_emb := emb question
      let idx := faissSearch1 e.index q_emb
      match pyGet e.chunks idx with
      | none => (none, reg)
      | some best_chunk => (some (refine emb sim question best_chunk), reg)

/-- Degenerate embedder used for concrete instantiations. -/
def trivEmb : List Char → List ℚ := fun s => [(s.length : ℚ)]

/-- Degenerate similarity used for concrete instantiations. -/
def trivSim : List ℚ → List ℚ → ℚ := fun u v => u.getD 0 0 * v.getD 0 0

/-! ## Lemmas on the chunker -/

theorem pyWordsAux_sound : ∀ (cs acc : List Char),
    (∀ c ∈ acc, isPySpace c = false) →
    ∀ w ∈ pyWordsAux acc cs, w ≠ [] ∧ ∀ c ∈ w, isPySpace c = false := by
  intro cs
  induction cs with
  | nil =>
      intro acc hacc w hw
      cases acc with
      | nil => simp [pyWordsAux] at hw
      | cons a as =>
          simp [pyWordsAux] at hw
          subst hw
          constructor
          · simp
          · intro c hc
            have h1 : c ∈ as ∨ c = a := by simpa using hc
            exact hacc c (List.mem_cons.mpr h1.symm)
  | cons c cs ih =>
      intro acc hacc w hw
      by_cases hsp : isPySpace c = true
      · cases acc with
        | nil =>
            rw [pyWordsAux, if_pos hsp] at hw
            simp only [List.isEmpty_nil, if_pos] at hw
            exact ih [] (by simp) w hw
        | cons a as =>
            rw [pyWordsAux, if_pos hsp] at hw
            simp only [List.isEmpty_cons, if_neg] at hw
            rcases List.mem_cons.mp hw with h | h
            · subst h
              refine ⟨by simp, ?_⟩
              intro d hd
              have h1 : d ∈ as ∨ d = a := by simpa using hd
              exact hacc d (List.mem_cons.mpr h1.symm)
            · exact ih [] (by simp) w h
      · rw [pyWordsAux, if_neg hsp] at hw
        refine ih (c :: acc) ?_ w hw
        intro d hd
        rcases List.mem_cons.mp hd with h | h
        · subst h; simpa using hsp
        · exact hacc d h

theorem pyWordsAux_word (w : List Char) (hw : ∀ c ∈ w, isPySpace c = false) :
    ∀ (rest acc : List Char),
    pyWordsAux acc (w ++ rest) = pyWordsAux (w.reverse ++ acc) rest := by
  induction w with
  | nil => intro rest acc; simp
  | cons c w ih =>
      intro rest acc
      have hc : isPySpace c = false := hw c (by simp)
      rw [List.cons_append, pyWordsAux, if_neg (by simp [hc])]
      rw [ih (fun d hd => hw d (by simp [hd])) rest (c :: acc)]
      simp

theorem pyWordsAux_space (acc rest : List Char) (h : acc ≠ []) :
    pyWordsAux acc (' ' :: rest) = acc.reverse :: pyWordsAux [] rest := by
  cases acc with
  | nil => exact absurd rfl h
  | cons a as => simp [pyWordsAux, isPySpace]

theorem pyWords_joinSep : ∀ (ws : List (List Char)),
    (∀ w ∈ ws, w ≠ [] ∧ ∀ c ∈ w, isPySpace c = false) →
    pyWords (joinSep ws) = ws := by
  intro ws
  induction ws with
  | nil => intro _; rfl
  | cons w vs ih =>
      intro h
      obtain ⟨hw, hwc⟩ := h w (by simp)
      cases vs with
      | nil =>
          show pyWordsAux [] (joinSep [w]) = [w]
          rw [joinSep]
          rw [show w = w ++ [] by simp, pyWordsAux_word w hwc [] []]
          simp only [List.append_nil]
          rw [pyWordsAux]
          rw [if_neg (by simpa using hw)]
          simp
      | cons v vs =>
          show pyWordsAux [] (joinSep (w :: v :: vs)) = w :: v :: vs
          rw [joinSep]
          rw [pyWordsAux_word w hwc _ []]
          simp only [List.append_nil]
          rw [pyWordsAux_space _ _ (by simpa using hw)]
          rw [List.reverse_reverse]
          have := ih (fun u hu => h u (by simp [hu]))
          rw [show pyWordsAux [] (joinSep (v :: vs)) = pyWords (joinSep (v :: vs)) from rfl, this]

theorem joinSep_append : ∀ (g h : List (List Char)), g ≠ [] → h ≠ [] →
    joinSep (g ++ h) = joinSep g ++ ' ' :: joinSep h
  | [], _, hg, _ => absurd rfl hg
  | [_], [], _, hh => absurd rfl hh
  | [w], x :: t, _, _ => by simp [joinSep]
  | w :: v :: g', h, _, hh => by
      have ih := joinSep_append (v :: g') h (List.cons_ne_nil _ _) hh
      show w ++ ' ' :: joinSep (v :: (g' ++ h)) =
        (w ++ ' ' :: joinSep (v :: g')) ++ ' ' :: joinSep h
      rw [show (v : List Char) :: (g' ++ h) = (v :: g') ++ h from rfl, ih]
      simp

theorem joinSep_map_joinSep : ∀ (gs : List (List (List Char))),
    (∀ g ∈ gs, g ≠ []) → joinSep (gs.map joinSep) = joinSep gs.flatten
  | [], _ => rfl
  | [g], _ => by simp [joinSep]
  | g :: g' :: gs, h => by
      have hg : g ≠ [] := h g (by simp)
      have hjoin : (g' :: gs).flatten ≠ [] := by
        have hg' : g' ≠ [] := h g' (by simp)
        cases g' with
        | nil => exact absurd rfl hg'
        | cons w t => simp
      have ih := joinSep_map_joinSep (g' :: gs) (fun u hu => h u (by simp [hu]))
      show joinSep g ++ ' ' :: joinSep ((g' :: gs).map joinSep) =
        joinSep (g ++ (g' :: gs).flatten)
      rw [ih, joinSep_append g (g' :: gs).flatten hg hjoin]

theorem chunkAux_join {α : Type} (n : ℕ) : ∀ (ws acc : List α) (k : ℕ),
    (chunkAux n acc k ws).flatten = acc.reverse ++ ws
  | [], acc, k => by
      cases acc with
      | nil => simp [chunkAux]
      | cons a as => simp [chunkAux]
  | w :: ws, acc, k => by
      rw [chunkAux]
      by_cases hk : k ≤ 1
      · rw [if_pos hk]
        simp [chunkAux_join n ws [] n]
      · rw [if_neg hk]
        rw [chunkAux_join n ws (w :: acc) (k - 1)]
        simp

theorem chunkAux_ne_nil {α : Type} (n : ℕ) : ∀ (ws acc : List α) (k : ℕ),
    ∀ g ∈ chunkAux n acc k ws, g ≠ []
  | [], acc, k => by
      cases acc with
      | nil => simp [chunkAux]
      | cons a as => simp [chunkAux]
  | w :: ws, acc, k => by
      intro g hg
      rw [chunkAux] at hg
      by_cases hk : k ≤ 1
      · rw [if_pos hk] at hg
        rcases List.mem_cons.mp hg with h | h
        · subst h; simp
        · exact chunkAux_ne_nil n ws [] n g h
      · rw [if_neg hk] at hg
        exact chunkAux_ne_nil n ws (w :: acc) (k - 1) g hg

theorem chunkAux_length {α : Type} (n : ℕ) : ∀ (ws acc : List α) (k : ℕ),
    k + acc.length = n → 1 ≤ k →
    (chunkAux n acc k ws).length = (acc.length + ws.length + n - 1) / n
  | [], acc, k => by
      intro hkn hk
      cases acc with
      | nil =>
          have he : chunkAux n ([] : List α) k [] = [] := by simp [chunkAux]
          rw [he]
          simp only [List.length_nil, Nat.add_zero, Nat.zero_add]
          rw [Nat.div_eq_of_lt (by omega)]
      | cons a as =>
          have he : chunkAux n (a :: as) k [] = [(a :: as).reverse] := by
            simp [chunkAux]
          rw [he]
          have hm : k + (as.length + 1) = n := by simpa using hkn
          have hdiv : ((a :: as).length + ([] : List α).length + n - 1) / n = 1 := by
            refine Nat.div_eq_of_lt_le ?_ ?_
            · simp only [List.length_cons, List.length_nil]; omega
            · simp only [List.length_cons, List.length_nil]; omega
          rw [hdiv]
          simp
  | w :: ws, acc, k => by
      intro hkn hk
      rw [chunkAux]
      by_cases hkle : k ≤ 1
      · rw [if_pos hkle]
        rw [List.length_cons]
        rw [chunkAux_length n ws [] n (by simp) (by omega)]
        have hnum : acc.length + (w :: ws).length + n - 1 =
            ([] : List α).length + ws.length + n - 1 + n := by
          simp only [List.length_cons, List.length_nil]
          omega
        rw [hnum, Nat.add_div_right _ (by omega : 0 < n)]
      · rw [if_neg hkle]
        rw [chunkAux_length n ws (w :: acc) (k - 1)
          (by simp only [List.length_cons]; omega) (by omega)]
        congr 1
        simp only [List.length_cons]
        omega

/-- C1: for every text and every chunk size `n > 0`, `chunk_text` produces
exactly `⌈W / n⌉` chunks (written `(W + n - 1) / n` in `ℕ`, hence `0` chunks
when `W = 0`), where `W` is the number of whitespace-split words; no chunk is
empty; and rejoining the chunks in order with single spaces reproduces the
original whitespace-split word sequence. -/
theorem chunk_text_correct (text : List Char) (n : ℕ) (hn : 0 < n) :
    (chunk_text text n).length = ((pyWords text).length + n - 1) / n ∧
    (∀ c ∈ chunk_text text n, c ≠ []) ∧
    pyWords (joinSep (chunk_text text n)) = pyWords text := by
  have hwords : ∀ w ∈ pyWords text, w ≠ [] ∧ ∀ c ∈ w, isPySpace c = false :=
    fun w hw => pyWordsAux_sound text [] (by simp) w hw
  have hgroups : ∀ g ∈ chunkWords n (pyWords text), g ≠ [] :=
    chunkAux_ne_nil n (pyWords text) [] n
  have hjoin : (chunkWords n (pyWords text)).flatten = pyWords text := by
    simpa using chunkAux_join n (pyWords text) [] n
  refine ⟨?_, ?_, ?_⟩
  · show ((chunkWords n (pyWords text)).map joinSep).length = _
    rw [List.length_map]
    simpa using chunkAux_length n (pyWords text) [] n (by simp) hn
  · intro c hc
    obtain ⟨g, hg, rfl⟩ := List.mem_map.mp hc
    have hgne := hgroups g hg
    cases g with
    | nil => exact absurd rfl hgne
    | cons w t =>
        cases t with
        | nil =>
            have hwmem : w ∈ pyWords text := by
              rw [← hjoin]
              exact List.mem_flatten.mpr ⟨[w], hg, by simp⟩
            have hw : w ≠ [] := (hwords w hwmem).1
            simpa [joinSep] using hw
        | cons v t' =>
            show joinSep (w :: v :: t') ≠ []
            intro hEq
            rw [show joinSep (w :: v :: t') = w ++ ' ' :: joinSep (v :: t') from rfl] at hEq
            cases w <;> simp_all
  · show pyWords (joinSep ((chunkWords n (pyWords text)).map joinSep)) = pyWords text
    rw [joinSep_map_joinSep _ hgroups, hjoin, pyWords_joinSep (pyWords text) hwords]

/-- Witness for C1 at `text = "a b c"`, `n = 2`. -/
theorem chunk_text_correct_witness :
    0 < 2 ∧
    ((chunk_text "a b c".data 2).length = ((pyWords "a b c".data).length + 2 - 1) / 2 ∧
     (∀ c ∈ chunk_text "a b c".data 2, c ≠ []) ∧
     pyWords (joinSep (chunk_text "a b c".data 2)) = pyWords "a b c".data) :=
  ⟨by decide, chunk_text_correct "a b c".data 2 (by decide)⟩

/-! ## Lemmas on first-argmin and first-argmax -/

theorem getD_map {α β : Type} (f : α → β) (d : α) :
    ∀ (l : List α) (j : ℕ), j < l.length → (l.map f).getD j (f d) = f (l.getD j d)
  | [], j, h => by simp at h
  | x :: xs, 0, _ => rfl
  | x :: xs, j + 1, h => by
      show (xs.map f).getD j (f d) = f (xs.getD j d)
      exact getD_map f d xs j (by simpa using h)

theorem argminQ_lt : ∀ (l : List ℚ), l ≠ [] → argminQ l < l.length
  | [], h => absurd rfl h
  | x :: xs, _ => by
      rw [argminQ]
      by_cases hc : (x ≤ xs.getD (argminQ xs) 0 || xs.isEmpty) = true
      · rw [if_pos hc]; simp
      · rw [if_neg hc]
        have hxs : xs ≠ [] := by
          intro hh; subst hh; simp at hc
        have := argminQ_lt xs hxs
        simpa using Nat.succ_lt_succ this

theorem argminQ_min : ∀ (l : List ℚ) (j : ℕ), j < l.length →
    l.getD (argminQ l) 0 ≤ l.getD j 0
  | [], j, h => by simp at h
  | x :: xs, j, h => by
      rw [argminQ]
      by_cases hc : (x ≤ xs.getD (argminQ xs) 0 || xs.isEmpty) = true
      · rw [if_pos hc]
        cases j with
        | zero => exact le_refl _
        | succ j' =>
            have hj' : j' < xs.length := by simpa using h
            rcases Bool.or_eq_true_iff.mp hc with h1 | h1
            · have hx : x ≤ xs.getD (argminQ xs) 0 := by simpa using h1
              exact le_trans hx (argminQ_min xs j' hj')
            · have : xs = [] := by simpa using h1
              subst this; simp at hj'
      · rw [if_neg hc]
        have hlt : xs.getD (argminQ xs) 0 < x := by
          rcases Bool.not_eq_true _ ▸ hc with _
          have h1 : ¬ (x ≤ xs.getD (argminQ xs) 0) := by
            intro hle
            exact hc (by simp only [decide_eq_true hle, Bool.true_or])
          exact lt_of_not_le h1
        cases j with
        | zero => exact le_of_lt hlt
        | succ j' =>
            have hj' : j' < xs.length := by simpa using h
            show xs.getD (argminQ xs) 0 ≤ xs.getD j' 0
            exact argminQ_min xs j' hj'

theorem argminQ_first : ∀ (l : List ℚ) (j : ℕ), j < argminQ l →
    l.getD (argminQ l) 0 < l.getD j 0
  | [], j, h => by simp [argminQ] at h
  | x :: xs, j, h => by
      rw [argminQ] at h ⊢
      by_cases hc : (x ≤ xs.getD (argminQ xs) 0 || xs.isEmpty) = true
      · rw [if_pos hc] at h; exact absurd h (Nat.not_lt_zero j)
      · rw [if_neg hc] at h ⊢
        have hlt : xs.getD (argminQ xs) 0 < x := by
          have h1 : ¬ (x ≤ xs.getD (argminQ xs) 0) := by
            intro hle
            exact hc (by simp only [decide_eq_true hle, Bool.true_or])
          exact lt_of_not_le h1
        cases j with
        | zero => exact hlt
        | succ j' =>
            have hj' : j' < argminQ xs := by omega
            exact argminQ_first xs j' hj'

theorem npArgmax_lt : ∀ (l : List ℚ), l ≠ [] → npArgmax l < l.length
  | [], h => absurd rfl h
  | x :: xs, _ => by
      rw [npArgmax]
      by_cases hc : (xs.getD (npArgmax xs) 0 ≤ x || xs.isEmpty) = true
      · rw [if_pos hc]; simp
      · rw [if_neg hc]
        have hxs : xs ≠ [] := by
          intro hh; subst hh; simp at hc
        have := npArgmax_lt xs hxs
        simpa using Nat.succ_lt_succ this

theorem npArgmax_max : ∀ (l : List ℚ) (j : ℕ), j < l.length →
    l.getD j 0 ≤ l.getD (npArgmax l) 0
  | [], j, h => by simp at h
  | x :: xs, j, h => by
      rw [npArgmax]
      by_cases hc : (xs.getD (npArgmax xs) 0 ≤ x || xs.isEmpty) = true
      · rw [if_pos hc]
        cases j with
        | zero => exact le_refl _
        | succ j' =>
            have hj' : j' < xs.length := by simpa using h
            rcases Bool.or_eq_true_iff.mp hc with h1 | h1
            · have hx : xs.getD (npArgmax xs) 0 ≤ x := by simpa using h1
              exact le_trans (npArgmax_max xs j' hj') hx
            · have : xs = [] := by simpa using h1
              subst this; simp at hj'
      · rw [if_neg hc]
        have hlt : x < xs.getD (npArgmax xs) 0 := by
          have h1 : ¬ (xs.getD (npArgmax xs) 0 ≤ x) := by
            intro hle
            exact hc (by simp only [decide_eq_true hle, Bool.true_or])
          exact lt_of_not_le h1
        cases j with
        | zero => exact le_of_lt hlt
        | succ j' =>
            have hj' : j' < xs.length := by simpa using h
            exact npArgmax_max xs j' hj'

theorem npArgmax_first : ∀ (l : List ℚ) (j : ℕ), j < npArgmax l →
    l.getD j 0 < l.getD (npArgmax l) 0
  | [], j, h => by simp [npArgmax] at h
  | x :: xs, j, h => by
      rw [npArgmax] at h ⊢
      by_cases hc : (xs.getD (npArgmax xs) 0 ≤ x || xs.isEmpty) = true
      · rw [if_pos hc] at h; exact absurd h (Nat.not_lt_zero j)
      · rw [if_neg hc] at h ⊢
        have hlt : x < xs.getD (npArgmax xs) 0 := by
          have h1 : ¬ (xs.getD (npArgmax xs) 0 ≤ x) := by
            intro hle
            exact hc (by simp only [decide_eq_true hle, Bool.true_or])
          exact lt_of_not_le h1
        cases j with
        | zero => exact hlt
        | succ j' =>
            have hj' : j' < npArgmax xs := by omega
            exact npArgmax_first xs j' hj'

/-- `sqDist` against the empty vector vanishes (the `getD` default case). -/
theorem sqDist_nil (q : List ℚ) : sqDist q [] = 0 := by
  cases q <;> simp [sqDist]

/-- C2: on a non-empty set of stored vectors, the `k = 1` search returns the
row index minimising squared L2 distance to the query, and on exact ties the
lower row index (earlier chunk) is returned. -/
theorem faissSearch1_nearest (rows : List (List ℚ)) (q : List ℚ) (hne : rows ≠ []) :
    (faissSearch1 rows q).toNat < rows.length ∧
    (∀ j, j < rows.length →
      sqDist q (rows.getD (faissSearch1 rows q).toNat []) ≤ sqDist q (rows.getD j [])) ∧
    (∀ j, j < rows.length →
      sqDist q (rows.getD j []) = sqDist q (rows.getD (faissSearch1 rows q).toNat []) →
      (faissSearch1 rows q).toNat ≤ j) := by
  have hie : ¬ (rows.isEmpty = true) := by
    cases rows with
    | nil => exact absurd rfl hne
    | cons r rs => simp
  have hdl : ∀ j, j < rows.length →
      (rows.map (fun r => sqDist q r)).getD j 0 = sqDist q (rows.getD j []) := by
    intro j hj
    rw [← sqDist_nil q]
    exact getD_map (fun r => sqDist q r) [] rows j hj
  have hfs : (faissSearch1 rows q).toNat =
      argminQ (rows.map (fun r => sqDist q r)) := by
    rw [faissSearch1, if_neg hie]
    exact Int.toNat_natCast _
  have hdlne : rows.map (fun r => sqDist q r) ≠ [] := by
    cases rows with
    | nil => exact absurd rfl hne
    | cons r rs => simp
  have hlen : (rows.map (fun r => sqDist q r)).length = rows.length :=
    List.length_map _ _
  have hlt : (faissSearch1 rows q).toNat < rows.length := by
    rw [hfs, ← hlen]
    exact argminQ_lt _ hdlne
  refine ⟨hlt, ?_, ?_⟩
  · intro j hj
    rw [← hdl j hj, ← hdl _ hlt, hfs]
    exact argminQ_min _ j (by rw [hlen]; exact hj)
  · intro j hj heq
    by_contra hcon
    have hjlt : j < argminQ (rows.map (fun r => sqDist q r)) := by
      rw [← hfs]; omega
    have := argminQ_first (rows.map (fun r => sqDist q r)) j hjlt
    rw [← hfs] at this
    rw [hdl j hj, hdl _ hlt] at this
    rw [heq] at this
    exact lt_irrefl _ this

/-- Witness for C2 at two one-dimensional stored rows and a query that is
exactly equidistant from both (the earlier row must win). -/
theorem faissSearch1_nearest_witness :
    ([[ (0 : ℚ) ], [ (2 : ℚ) ]] : List (List ℚ)) ≠ [] ∧
    ((faissSearch1 [[(0 : ℚ)], [(2 : ℚ)]] [(1 : ℚ)]).toNat < 2 ∧
     (∀ j, j < ([[(0 : ℚ)], [(2 : ℚ)]] : List (List ℚ)).length →
       sqDist [(1 : ℚ)] ([[(0 : ℚ)], [(2 : ℚ)]].getD
         (faissSearch1 [[(0 : ℚ)], [(2 : ℚ)]] [(1 : ℚ)]).toNat []) ≤
       sqDist [(1 : ℚ)] ([[(0 : ℚ)], [(2 : ℚ)]].getD j [])) ∧
     (∀ j, j < ([[(0 : ℚ)], [(2 : ℚ)]] : List (List ℚ)).length →
       sqDist [(1 : ℚ)] ([[(0 : ℚ)], [(2 : ℚ)]].getD j []) =
       sqDist [(1 : ℚ)] ([[(0 : ℚ)], [(2 : ℚ)]].getD
         (faissSearch1 [[(0 : ℚ)], [(2 : ℚ)]] [(1 : ℚ)]).toNat []) →
       (faissSearch1 [[(0 : ℚ)], [(2 : ℚ)]] [(1 : ℚ)]).toNat ≤ j)) :=
  ⟨by decide, faissSearch1_nearest [[(0 : ℚ)], [(2 : ℚ)]] [(1 : ℚ)] (by decide)⟩

/-- C4: a query against a session id with no registry entry returns the
fixed sentinel answer, whatever the question, and leaves the registry as it
was (no exception: the result is a normal `some`). -/
theorem rag_query_unknown_session (emb : List Char → List ℚ)
    (sim : List ℚ → List ℚ → ℚ) (question : List Char) (sid : String)
    (reg : Registry) (h : reg sid = none) :
    rag_query emb sim question sid reg = (some noPdfMsg, reg) := by
  unfold rag_query
  rw [h]

/-- Witness for C4 on the empty registry. -/
theorem rag_query_unknown_session_witness :
    emptyReg "S" = none ∧
    rag_query trivEmb trivSim "Qui ?".data "S" emptyReg = (some noPdfMsg, emptyReg) :=
  ⟨rfl, rag_query_unknown_session trivEmb trivSim "Qui ?".data "S" emptyReg rfl⟩

/-- C10: a query never adds, removes or modifies any session entry — the
registry after `rag_query` is exactly the registry before. -/
theorem rag_query_frame (emb : List Char → List ℚ) (sim : List ℚ → List ℚ → ℚ)
    (question : List Char) (sid : String) (reg : Registry) :
    (rag_query emb sim question sid reg).2 = reg := by
  unfold rag_query
  cases hreg : reg sid with
  | none => rfl
  | some e =>
      cases hget : pyGet e.chunks (faissSearch1 e.index (emb question)) with
      | none => simp [hget]
      | some c => simp [hget]

/-- Overwriting the same key twice keeps only the second entry. -/
theorem updateReg_same (reg : Registry) (sid : String) (e1 e2 : Entry) :
    updateReg (updateReg reg sid e1) sid e2 = updateReg reg sid e2 := by
  funext x
  unfold updateReg
  by_cases hx : x = sid <;> simp [hx]

/-- A completed ingestion stores exactly the entry built from the document,
overwriting the session's key. -/
theorem index_pdf_some {emb : List Char → List ℚ} {d : List Char} {sid : String}
    {reg reg' : Registry} (h : index_pdf emb d sid reg = some reg') :
    reg' = updateReg reg sid ⟨(chunk_text d 128).map emb, chunk_text d 128⟩ := by
  have h2 : (if ((chunk_text d 128).map emb).isEmpty then none
      else some (updateReg reg sid
        ⟨(chunk_text d 128).map emb, chunk_text d 128⟩)) = some reg' := h
  by_cases hc : ((chunk_text d 128).map emb).isEmpty = true
  · rw [if_pos hc] at h2
    cases h2
  · rw [if_neg hc] at h2
    exact (Option.some.inj h2).symm

/-- C3: re-ingesting a session replaces its entry wholesale — after a
completed ingestion of `d1` followed by a completed ingestion of `d2` under
the same session id, every query behaves exactly as if only `d2` had ever
been ingested. -/
theorem reingest_replaces (emb : List Char → List ℚ) (sim : List ℚ → List ℚ → ℚ)
    (d1 d2 : List Char) (sid : String) (reg reg1 reg2 reg2' : Registry)
    (question : List Char)
    (h1 : index_pdf emb d1 sid reg = some reg1)
    (h2 : index_pdf emb d2 sid reg1 = some reg2)
    (h2' : index_pdf emb d2 sid reg = some reg2') :
    rag_query emb sim question sid reg2 = rag_query emb sim question sid reg2' := by
  rw [index_pdf_some h2, index_pdf_some h1, updateReg_same, index_pdf_some h2']

/-- Witness for C3: ingest "a" then "b" under one session from the empty
registry; queries agree with the "b"-only ingestion. -/
theorem reingest_replaces_witness :
    (index_pdf trivEmb "a".data "S" emptyReg =
      some (updateReg emptyReg "S" ⟨[trivEmb "a".data], ["a".data]⟩)) ∧
    (index_pdf trivEmb "b".data "S"
        (updateReg emptyReg "S" ⟨[trivEmb "a".data], ["a".data]⟩) =
      some (updateReg (updateReg emptyReg "S" ⟨[trivEmb "a".data], ["a".data]⟩)
        "S" ⟨[trivEmb "b".data], ["b".data]⟩)) ∧
    (index_pdf trivEmb "b".data "S" emptyReg =
      some (updateReg emptyReg "S" ⟨[trivEmb "b".data], ["b".data]⟩)) ∧
    rag_query trivEmb trivSim "q".data "S"
        (updateReg (updateReg emptyReg "S" ⟨[trivEmb "a".data], ["a".data]⟩)
          "S" ⟨[trivEmb "b".data], ["b".data]⟩) =
      rag_query trivEmb trivSim "q".data "S"
        (updateReg emptyReg "S" ⟨[trivEmb "b".data], ["b".data]⟩) :=
  ⟨rfl, rfl, rfl,
    reingest_replaces trivEmb trivSim "a".data "b".data "S" emptyReg
      (updateReg emptyReg "S" ⟨[trivEmb "a".data], ["a".data]⟩)
      (updateReg (updateReg emptyReg "S" ⟨[trivEmb "a".data], ["a".data]⟩)
        "S" ⟨[trivEmb "b".data], ["b".data]⟩)
      (updateReg emptyReg "S" ⟨[trivEmb "b".data], ["b".data]⟩)
      "q".data rfl rfl rfl⟩

/-- C8: sessions are isolated — a completed ingestion under a different
session id `B` does not change the answer of any query on session `A`. -/
theorem session_isolation (emb : List Char → List ℚ) (sim : List ℚ → List ℚ → ℚ)
    (dA dB : List Char) (A B : String) (reg regA regAB : Registry)
    (question : List Char) (hAB : A ≠ B)
    (_hA : index_pdf emb dA A reg = some regA)
    (hB : index_pdf emb dB B regA = some regAB) :
    (rag_query emb sim question A regAB).1 =
    (rag_query emb sim question A regA).1 := by
  have hlook : regAB A = regA A := by
    rw [index_pdf_some hB]
    unfold updateReg
    rw [if_neg hAB]
  unfold rag_query
  rw [hlook]
  cases he : regA A with
  | none => rfl
  | some e =>
      cases hg : pyGet e.chunks (faissSearch1 e.index (emb question)) with
      | none => simp [hg]
      | some c => simp [hg]

/-- Witness for C8 with two concrete sessions and documents. -/
theorem session_isolation_witness :
    ("A" : String) ≠ "B" ∧
    (index_pdf trivEmb "doc a".data "A" emptyReg =
      some (updateReg emptyReg "A" ⟨[trivEmb "doc a".data], ["doc a".data]⟩)) ∧
    (index_pdf trivEmb "doc b".data "B"
        (updateReg emptyReg "A" ⟨[trivEmb "doc a".data], ["doc a".data]⟩) =
      some (updateReg (updateReg emptyReg "A" ⟨[trivEmb "doc a".data], ["doc a".data]⟩)
        "B" ⟨[trivEmb "doc b".data], ["doc b".data]⟩)) ∧
    ((rag_query trivEmb trivSim "q".data "A"
        (updateReg (updateReg emptyReg "A" ⟨[trivEmb "doc a".data], ["doc a".data]⟩)
          "B" ⟨[trivEmb "doc b".data], ["doc b".data]⟩)).1 =
     (rag_query trivEmb trivSim "q".data "A"
        (updateReg emptyReg "A" ⟨[trivEmb "doc a".data], ["doc a".data]⟩)).1) :=
  ⟨by decide, rfl, rfl,
    session_isolation trivEmb trivSim "doc a".data "doc b".data "A" "B" emptyReg
      (updateReg emptyReg "A" ⟨[trivEmb "doc a".data], ["doc a".data]⟩)
      (updateReg (updateReg emptyReg "A" ⟨[trivEmb "doc a".data], ["doc a".data]⟩)
        "B" ⟨[trivEmb "doc b".data], ["doc b".data]⟩)
      "q".data (by decide) rfl rfl⟩

/-- `getD` does not depend on the default inside the list's range. -/
theorem getD_irrel {α : Type} : ∀ (l : List α) (j : ℕ), j < l.length →
    ∀ (d1 d2 : α), l.getD j d1 = l.getD j d2
  | [], j, h => by simp at h
  | x :: xs, 0, _ => fun _ _ => rfl
  | x :: xs, j + 1, h => fun d1 d2 => getD_irrel xs j (by simpa using h) d1 d2

/-- C5 is false as stated: on a chunk whose split yields exactly one
sentence, the heuristic authorship-extraction step still runs — here it
rewrites the single sentence into a bare name instead of returning the
sentence unmodified. -/
theorem single_sentence_cex :
    (splitSentences "Auteur: Jane Doe".data).length = 1 ∧
    refine trivEmb trivSim "auteur ?".data "Auteur: Jane Doe".data = "Jane Doe".data ∧
    "Jane Doe".data ≠ "Auteur: Jane Doe".data :=
  ⟨by decide, by decide, by decide⟩

/-- C5 (amended): when the sentence split of the best chunk yields exactly
one sentence, the reranking step is skipped (the result does not depend on
the embedder or the similarity) and, provided the question contains no
authorship trigger phrase, that sentence is returned unmodified. -/
theorem single_sentence_verbatim (emb : List Char → List ℚ)
    (sim : List ℚ → List ℚ → ℚ) (question chunk : List Char)
    (h1 : (splitSentences chunk).length = 1)
    (h2 : authorTrigger question = false) :
    refine emb sim question chunk = chunk := by
  have hbs : bestSentence emb sim question chunk = chunk := by
    show (if (splitSentences chunk).length = 1 then chunk
      else (splitSentences chunk).getD
        (npArgmax (sentenceSims emb sim question (splitSentences chunk))) []) = chunk
    rw [if_pos h1]
  rw [refine, hbs, heuristic, h2]
  simp

/-- Witness for C5 (amended) on a trigger-free question. -/
theorem single_sentence_verbatim_witness :
    (splitSentences "Bla bla.".data).length = 1 ∧
    authorTrigger "ok".data = false ∧
    refine trivEmb trivSim "ok".data "Bla bla.".data = "Bla bla.".data :=
  ⟨by decide, by decide,
    single_sentence_verbatim trivEmb trivSim "ok".data "Bla bla.".data
      (by decide) (by decide)⟩

/-- C6: when the split yields two or more sentences, the refinement stage
selects `sentences[np.argmax(sims)]`: an in-range index whose similarity is
maximal, and the earliest such index on ties. -/
theorem rerank_selects_max (emb : List Char → List ℚ)
    (sim : List ℚ → List ℚ → ℚ) (question chunk : List Char)
    (h2 : 2 ≤ (splitSentences chunk).length) :
    bestSentence emb sim question chunk =
      (splitSentences chunk).getD
        (npArgmax (sentenceSims emb sim question (splitSentences chunk))) [] ∧
    npArgmax (sentenceSims emb sim question (splitSentences chunk)) <
      (splitSentences chunk).length ∧
    (∀ j, j < (splitSentences chunk).length →
      sim (emb question) (emb ((splitSentences chunk).getD j [])) ≤
      sim (emb question) (emb ((splitSentences chunk).getD
        (npArgmax (sentenceSims emb sim question (splitSentences chunk))) []))) ∧
    (∀ j, j < (splitSentences chunk).length →
      sim (emb question) (emb ((splitSentences chunk).getD j [])) =
      sim (emb question) (emb ((splitSentences chunk).getD
        (npArgmax (sentenceSims emb sim question (splitSentences chunk))) [])) →
      npArgmax (sentenceSims emb sim question (splitSentences chunk)) ≤ j) := by
  have hlen : (sentenceSims emb sim question (splitSentences chunk)).length =
      (splitSentences chunk).length := List.length_map _ _
  have hne : sentenceSims emb sim question (splitSentences chunk) ≠ [] := by
    intro hh
    rw [hh] at hlen
    simp only [List.length_nil] at hlen
    omega
  have hargmax : npArgmax (sentenceSims emb sim question (splitSentences chunk)) <
      (splitSentences chunk).length := by
    rw [← hlen]
    exact npArgmax_lt _ hne
  have hsim : ∀ j, j < (splitSentences chunk).length →
      (sentenceSims emb sim question (splitSentences chunk)).getD j 0 =
      sim (emb question) (emb ((splitSentences chunk).getD j [])) := by
    intro j hj
    rw [getD_irrel _ j (by rw [hlen]; exact hj) 0 (sim (emb question) (emb []))]
    exact getD_map (fun s => sim (emb question) (emb s)) [] (splitSentences chunk) j hj
  refine ⟨?_, hargmax, ?_, ?_⟩
  · show (if (splitSentences chunk).length = 1 then chunk
      else (splitSentences chunk).getD
        (npArgmax (sentenceSims emb sim question (splitSentences chunk))) []) = _
    rw [if_neg (by omega)]
  · intro j hj
    rw [← hsim j hj, ← hsim _ hargmax]
    exact npArgmax_max _ j (by rw [hlen]; exact hj)
  · intro j hj heq
    by_contra hcon
    have hjlt : j < npArgmax (sentenceSims emb sim question (splitSentences chunk)) := by
      omega
    have := npArgmax_first (sentenceSims emb sim question (splitSentences chunk)) j hjlt
    rw [hsim j hj, hsim _ hargmax, heq] at this
    exact lt_irrefl _ this

/-- Witness for C6 on a two-sentence chunk where the degenerate similarity
pairs give distinct scores. -/
theorem rerank_selects_max_witness :
    2 ≤ (splitSentences "Un chat. Le chien dort.".data).length ∧
    (bestSentence trivEmb trivSim "q".data "Un chat. Le chien dort.".data =
      (splitSentences "Un chat. Le chien dort.".data).getD
        (npArgmax (sentenceSims trivEmb trivSim "q".data
          (splitSentences "Un chat. Le chien dort.".data))) [] ∧
     npArgmax (sentenceSims trivEmb trivSim "q".data
        (splitSentences "Un chat. Le chien dort.".data)) <
       (splitSentences "Un chat. Le chien dort.".data).length ∧
     (∀ j, j < (splitSentences "Un chat. Le chien dort.".data).length →
       trivSim (trivEmb "q".data)
           (trivEmb ((splitSentences "Un chat. Le chien dort.".data).getD j [])) ≤
       trivSim (trivEmb "q".data)
           (trivEmb ((splitSentences "Un chat. Le chien dort.".data).getD
             (npArgmax (sentenceSims trivEmb trivSim "q".data
               (splitSentences "Un chat. Le chien dort.".data))) []))) ∧
     (∀ j, j < (splitSentences "Un chat. Le chien dort.".data).length →
       trivSim (trivEmb "q".data)
           (trivEmb ((splitSentences "Un chat. Le chien dort.".data).getD j [])) =
       trivSim (trivEmb "q".data)
           (trivEmb ((splitSentences "Un chat. Le chien dort.".data).getD
             (npArgmax (sentenceSims trivEmb trivSim "q".data
               (splitSentences "Un chat. Le chien dort.".data))) [])) →
       npArgmax (sentenceSims trivEmb trivSim "q".data
         (splitSentences "Un chat. Le chien dort.".data)) ≤ j)) :=
  ⟨by decide,
    rerank_selects_max trivEmb trivSim "q".data "Un chat. Le chien dort.".data (by decide)⟩

/-- C7 is false as stated: the trigger phrases and pattern labels are the
French localisations, so the English question does not trigger the
extraction and the sentence itself is returned, not "Jane Doe". -/
theorem authorship_extraction_cex :
    authorTrigger "Who presented this?".data = false ∧
    refine trivEmb trivSim "Who presented this?".data "Presented by Jane Doe.".data =
      "Presented by Jane Doe.".data ∧
    "Presented by Jane Doe.".data ≠ "Jane Doe".data :=
  ⟨by decide, by decide, by decide⟩

/-- C7 (amended): with the French localisation — question "Qui a présenté
ceci ?" and sentence "Présenté par Jane Doe." — the heuristic triggers and
returns exactly "Jane Doe" (trailing punctuation and all characters other
than letters, apostrophes, hyphens and spaces stripped) instead of the
sentence, for every embedder and similarity. -/
theorem authorship_extraction_fr (emb : List Char → List ℚ)
    (sim : List ℚ → List ℚ → ℚ) :
    authorTrigger "Qui a présenté ceci ?".data = true ∧
    refine emb sim "Qui a présenté ceci ?".data "Présenté par Jane Doe.".data =
      "Jane Doe".data := by
  constructor
  · decide
  · have h1 : (splitSentences "Présenté par Jane Doe.".data).length = 1 := by decide
    have hbs : bestSentence emb sim "Qui a présenté ceci ?".data
        "Présenté par Jane Doe.".data = "Présenté par Jane Doe.".data := by
      show (if (splitSentences "Présenté par Jane Doe.".data).length = 1
        then "Présenté par Jane Doe.".data
        else (splitSentences "Présenté par Jane Doe.".data).getD
          (npArgmax (sentenceSims emb sim "Qui a présenté ceci ?".data
            (splitSentences "Présenté par Jane Doe.".data))) []) = _
      rw [if_pos h1]
    rw [refine, hbs]
    decide

/-- C9 is false as stated: ingesting a whitespace-only document yields zero
chunks, but the ingestion does not complete — `model.encode([])` is an
empty array of shape `(0,)`, so the `dim = embeddings.shape[1]` read raises
`IndexError` (the `none` result) and no entry is published. -/
theorem empty_document_cex :
    chunk_text "   ".data 128 = [] ∧
    index_pdf trivEmb "   ".data "S" emptyReg = none :=
  ⟨by decide, rfl⟩

/-- C9 (amended): for every document whose extracted text splits into zero
words, chunking produces zero chunks, the ingestion itself fails with
`IndexError` at the `dim = embeddings.shape[1]` read (publishing nothing,
so the registry is unchanged), and a subsequent query on that session —
still absent from the registry — returns the unknown-session sentinel, a
well-defined result. -/
theorem empty_document_ingestion_fails (emb : List Char → List ℚ)
    (sim : List ℚ → List ℚ → ℚ) (text : List Char) (sid : String)
    (reg : Registry) (question : List Char) (h : pyWords text = [])
    (h0 : reg sid = none) :
    chunk_text text 128 = [] ∧
    index_pdf emb text sid reg = none ∧
    rag_query emb sim question sid reg = (some noPdfMsg, reg) := by
  have hchunks : chunk_text text 128 = [] := by
    unfold chunk_text chunkWords
    rw [h]
    rfl
  refine ⟨hchunks, ?_, ?_⟩
  · show (if ((chunk_text text 128).map emb).isEmpty then none
      else some (updateReg reg sid
        ⟨(chunk_text text 128).map emb, chunk_text text 128⟩)) = none
    rw [hchunks]
    rfl
  · unfold rag_query
    rw [h0]

/-- Witness for C9 (amended) on the empty text and a fresh session. -/
theorem empty_document_ingestion_fails_witness :
    pyWords "".data = [] ∧
    emptyReg "S" = none ∧
    (chunk_text "".data 128 = [] ∧
     index_pdf trivEmb "".data "S" emptyReg = none ∧
     rag_query trivEmb trivSim "q".data "S" emptyReg = (some noPdfMsg, emptyReg)) :=
  ⟨by decide, rfl,
    empty_document_ingestion_fails trivEmb trivSim "".data "S" emptyReg "q".data
      (by decide) rfl⟩

end RagServer
